import Mathlib

/-!
Verification of the lab3 "barbershop" simulation (`src/lab3/main.py`).

The program is a bounded-waiting-room producer/consumer simulation: a burst of
client threads race to enter a FIFO queue of fixed capacity (`CHAIRS = 3`), a
single barber thread drains the queue, and three counters (`arrived`, `served`,
`lost`) account for every client.  All shared-state mutation happens in short
critical sections guarded by `state_lock` (the safety toggle
`ENABLE_THREAD_SAFETY = True` selects a real mutex, making each such section
atomic).

We embed the program as a labeled transition system: one label per atomic
action (each lock-guarded critical section, each semaphore/event primitive
operation).  `step` is the executable small-step function, `runTrace` executes
a list of labels, and `Reachable` quantifies over arbitrary interleavings.
Pure fragments of the program (`trySeat`, `_fib`, the barrier arithmetic, the
shutdown handler, the orchestrator call sequence) are embedded directly as
functions and data.
-/

/-- Source constant `CHAIRS = 3`: the waiting-room capacity. -/
def CHAIRS : Nat := 3

/-- Source constant `BURST_SIZE = 12`: number of client threads per burst. -/
def BURST_SIZE : Nat := 12

/-- Source constant `SEED = 42`: seed for the pseudo-random generator. -/
def SEED : Nat := 42

/-- Source constant `HAIRCUT_MS_RANGE = (200, 400)`: inclusive range of the
haircut-duration draws in milliseconds. -/
def HAIRCUT_MS_RANGE : Nat × Nat := (200, 400)

/-- The admission attempt inside `BarberShop.spawn_client` (lines 166-177),
executed while `state_lock` is held: if `len(self.queue) < CHAIRS` the ticket
is appended to the tail of the queue and the client is admitted (`queued =
True`); otherwise the queue is left unchanged and the client is rejected.
Tickets are represented by their client id. -/
def trySeat (q : List Nat) (t : Nat) : List Nat × Bool :=
  if q.length < CHAIRS then (q ++ [t], true) else (q, false)

/-- Synthetic CPU workload `BarberShop._fib` (lines 114-117), on Python
integers: `n` itself when `n <= 1`, otherwise the sum of the two recursive
calls.  Totality of this Lean definition is the termination claim. -/
def _fib (n : Int) : Int :=
  if n ≤ 1 then n
  else _fib (n - 1) + _fib (n - 2)
termination_by n.toNat
decreasing_by
  · simp_wf
    omega
  · simp_wf
    omega

/-- State of `WinBarrier` (lines 76-89): a party count and a manual-reset
event, guarded by a mutex.  The event is created non-signaled and is never
reset by any code path. -/
structure WinBarrier where
  parties : Nat
  count : Nat
  evtSet : Bool
deriving DecidableEq, Repr

/-- `WinBarrier.__init__`: count 0, event non-signaled. -/
def mkWinBarrier (parties : Nat) : WinBarrier :=
  { parties := parties, count := 0, evtSet := false }

/-- One call of `WinBarrier.wait` up to its blocking point: under the mutex,
increment `count` and set the manual-reset event when `count >= parties`; the
caller then blocks until the event is signaled. -/
def WinBarrier.arrive (b : WinBarrier) : WinBarrier :=
  { b with
    count := b.count + 1
    evtSet := b.evtSet || decide (b.count + 1 ≥ b.parties) }

/-- Whether a caller blocked in `WinBarrier.wait` (or a fresh caller reaching
`self.evt.wait()`) may return: exactly when the manual-reset event is set. -/
def WinBarrier.canReturn (b : WinBarrier) : Bool :=
  b.evtSet

/-- The barrier state after `k` calls to `wait` have passed the counting
section, starting from a fresh barrier for `parties` parties. -/
def afterArrivals (parties : Nat) : Nat → WinBarrier
  | 0 => mkWinBarrier parties
  | k + 1 => (afterArrivals parties k).arrive

/-- Outcome of the `try` body in `BarberShop.shutdown` (lines 198-203):
whether flushing then closing the csv file raised. -/
inductive FlushResult where
  | ok
  | raised
deriving DecidableEq, Repr

/-- The `try` body of `BarberShop.shutdown`: `self.csv_file.flush()` then
`self.csv_file.close()`; the first raising operation aborts the body. -/
def flushClose (flushRaises closeRaises : Bool) : FlushResult :=
  if flushRaises then .raised
  else if closeRaises then .raised
  else .ok

/-- Observable effect of `BarberShop.shutdown` (lines 193-203): the stop event
is set, the customers semaphore gets one extra release, and the log-sink
flush/close is attempted under `log_lock` inside `try ... except Exception:
pass`. -/
structure ShutdownEffect where
  stopSet : Bool
  extraReleases : Nat
  completed : Bool
  errorLogged : Bool
deriving DecidableEq, Repr

/-- `BarberShop.shutdown`, parameterized by whether the flush and the close
raise.  Both arms of the exception handler reach the end of the method; the
`except Exception` branch is `pass`, so no record of the failure is emitted. -/
def shutdownModel (flushRaises closeRaises : Bool) : ShutdownEffect :=
  match flushClose flushRaises closeRaises with
  | .ok => { stopSet := true, extraReleases := 1, completed := true, errorLogged := false }
  | .raised => { stopSet := true, extraReleases := 1, completed := true, errorLogged := false }

/-- The read-only invariant checker `BarberShop.assert_invariants`
(lines 212-216), as a boolean predicate on the counters and queue length. -/
def assertInvariants (qLen arrived served lost : Nat) : Bool :=
  decide (qLen ≤ CHAIRS) && decide (served + lost ≤ arrived)

/-- The orchestrator actions appearing in `run_burst` (lines 219-245), in
source order, as an enumeration. -/
inductive OrchAction where
  | seedRng
  | makeCsvPath
  | createShop
  | startBarber
  | createBarrier
  | spawnClients
  | barrierWait
  | recordStart
  | joinClients
  | settleSleep
  | recordEnd
  | shutdownShop
  | readCounters
  | printSummary
  | printCsvPath
  | assertInvs
deriving DecidableEq, Repr

/-- The sequence of operations `run_burst` performs, transliterated line by
line from the source: seed the RNG, build the csv path, construct the shop,
start the barber, build the barrier for `BURST_SIZE + 1` parties, spawn the
clients, wait on the barrier, record the start time, join every client thread,
sleep 0.2 s, record the end time, shut the shop down, read the counters under
the lock, print the summary line, print the csv path. -/
def runBurstActions : List OrchAction :=
  [.seedRng, .makeCsvPath, .createShop, .startBarber, .createBarrier,
   .spawnClients, .barrierWait, .recordStart, .joinClients, .settleSleep,
   .recordEnd, .shutdownShop, .readCounters, .printSummary, .printCsvPath]

/-- Program counter of one client thread (`BarberShop.spawn_client`, lines
157-191), between the atomic actions of its body.  The `sig` flag of the
`seated`/`waiting` stages records whether the client's own `WinEvent` (its
ticket's completion signal) has been set by the barber. -/
inductive ClientPC where
  | start
  | atSeat
  | seated (sig : Bool)
  | waiting (sig : Bool)
  | rejected
  | done
deriving DecidableEq, Repr

/-- Program counter of the barber thread (`BarberShop.start_barber`, lines
133-155) inside its polling loop. -/
inductive BarberPC where
  | top
  | wait
  | deq
  | work (c : Nat)
  | sig (c : Nat)
  | inc (c : Nat)
  | stopped
deriving DecidableEq, Repr

/-- One state of the whole lab3 system: the lock-guarded shop fields (`queue`,
`arrived`, `served`, `lost`), the count of the `customers` semaphore, the
`stop` event, every client thread's program counter (client `i` is
`clients[i]`, and its ticket id is `i`), the barber's program counter, and the
state and output history of the seeded pseudo-random generator. -/
structure SysState where
  queue : List Nat
  arrived : Nat
  served : Nat
  lost : Nat
  sem : Nat
  stop : Bool
  clients : List ClientPC
  bpc : BarberPC
  rng : Nat
  draws : List Nat
deriving DecidableEq, Repr

/-- Labels of the atomic actions of the system: each lock-guarded critical
section and each bare synchronization-primitive operation of the source is one
label. -/
inductive Label where
  | cArrive (i : Nat)
  | cSeatOk (i : Nat)
  | cSeatFull (i : Nat)
  | cRelease (i : Nat)
  | cFinish (i : Nat)
  | cLost (i : Nat)
  | bGo
  | bStop
  | bTimeout
  | bAcquire
  | bPopSome
  | bPopNone
  | bWork
  | bSignal
  | bServed
  | oShutdown
deriving DecidableEq, Repr

/-- Setting a client's completion event (`token['ev'].set()`): records the
signal in the stages where the client still waits on it, and is a no-op on the
others (setting a Win32 event is idempotent). -/
def ClientPC.setSig : ClientPC → ClientPC
  | .seated _ => .seated true
  | .waiting _ => .waiting true
  | pc => pc

/-- Modelled from the spec: Python's seeded global pseudo-random generator
(`random.seed` / `random.randint`), standard-library code absent from `src/`;
the spec requires only a deterministic state machine whose draws lie in
`HAIRCUT_MS_RANGE`, so it is modelled as a linear congruential generator with
the draw mapped into the configured inclusive range. -/
def randNext (r : Nat) : Nat × Nat :=
  let r2 := (r * 75 + 74) % 65537
  (HAIRCUT_MS_RANGE.1 + r2 % (HAIRCUT_MS_RANGE.2 - HAIRCUT_MS_RANGE.1 + 1), r2)

/-- Small-step semantics of the lab3 system with the safety toggle enabled:
each label fires only when its thread is at the matching program point, and
performs exactly the source's state change for that atomic action.  `none`
means the label is not enabled in `s`.  `chairs` generalizes the source
constant `CHAIRS`. -/
def step (chairs : Nat) (l : Label) (s : SysState) : Option SysState :=
  match l with
  | .cArrive i =>
    match s.clients[i]? with
    | some .start =>
      some { s with arrived := s.arrived + 1, clients := s.clients.set i .atSeat }
    | _ => none
  | .cSeatOk i =>
    match s.clients[i]? with
    | some .atSeat =>
      if s.queue.length < chairs then
        some { s with queue := s.queue ++ [i], clients := s.clients.set i (.seated false) }
      else none
    | _ => none
  | .cSeatFull i =>
    match s.clients[i]? with
    | some .atSeat =>
      if s.queue.length < chairs then none
      else some { s with clients := s.clients.set i .rejected }
    | _ => none
  | .cRelease i =>
    match s.clients[i]? with
    | some (.seated b) =>
      some { s with sem := s.sem + 1, clients := s.clients.set i (.waiting b) }
    | _ => none
  | .cFinish i =>
    match s.clients[i]? with
    | some (.waiting true) => some { s with clients := s.clients.set i .done }
    | _ => none
  | .cLost i =>
    match s.clients[i]? with
    | some .rejected =>
      some { s with lost := s.lost + 1, clients := s.clients.set i .done }
    | _ => none
  | .bGo =>
    match s.bpc with
    | .top => if s.stop then none else some { s with bpc := .wait }
    | _ => none
  | .bStop =>
    match s.bpc with
    | .top => if s.stop then some { s with bpc := .stopped } else none
    | _ => none
  | .bTimeout =>
    match s.bpc with
    | .wait => some { s with bpc := .top }
    | _ => none
  | .bAcquire =>
    match s.bpc with
    | .wait => if 0 < s.sem then some { s with sem := s.sem - 1, bpc := .deq } else none
    | _ => none
  | .bPopSome =>
    match s.bpc with
    | .deq =>
      match s.queue with
      | c :: rest => some { s with queue := rest, bpc := .work c }
      | [] => none
    | _ => none
  | .bPopNone =>
    match s.bpc with
    | .deq =>
      match s.queue with
      | [] => some { s with bpc := .top }
      | _ => none
    | _ => none
  | .bWork =>
    match s.bpc with
    | .work c =>
      some { s with
        rng := (randNext s.rng).2
        draws := s.draws ++ [(randNext s.rng).1]
        bpc := .sig c }
    | _ => none
  | .bSignal =>
    match s.bpc with
    | .sig c =>
      match s.clients[c]? with
      | some pc => some { s with clients := s.clients.set c pc.setSig, bpc := .inc c }
      | none => none
    | _ => none
  | .bServed =>
    match s.bpc with
    | .inc _ => some { s with served := s.served + 1, bpc := .top }
    | _ => none
  | .oShutdown =>
    if s.stop then none
    else some { s with stop := true, sem := s.sem + 1 }

/-- The initial state of one burst: empty queue, zero counters, semaphore 0,
stop clear, `n` clients all about to run (post-barrier), the barber at the top
of its loop, and the generator freshly seeded. -/
def initState (seed n : Nat) : SysState :=
  { queue := []
    arrived := 0
    served := 0
    lost := 0
    sem := 0
    stop := false
    clients := List.replicate n .start
    bpc := .top
    rng := seed
    draws := [] }

/-- Execute a list of labels from a state; fails if any label is not enabled
where it occurs. -/
def runTrace (chairs : Nat) : List Label → SysState → Option SysState
  | [], s => some s
  | l :: ls, s =>
    match step chairs l s with
    | some t => runTrace chairs ls t
    | none => none

/-- A state is reachable if some interleaving of the threads' atomic actions
produces it from the initial state. -/
def Reachable (chairs seed n : Nat) (s : SysState) : Prop :=
  ∃ ls : List Label, runTrace chairs ls (initState seed n) = some s

/-- Accounting weight of a client stage: a client who has incremented
`arrived` but is not yet counted by `served`, `lost`, or a queue entry. -/
def ClientPC.weight : ClientPC → Nat
  | .start => 0
  | .atSeat => 1
  | .seated _ => 0
  | .waiting _ => 0
  | .rejected => 1
  | .done => 0

/-- Total accounting weight of the client threads. -/
def pending (cs : List ClientPC) : Nat :=
  (cs.map ClientPC.weight).sum

/-- Accounting weight of the barber stage: one while the barber holds a
ticket it has popped from the queue but not yet counted in `served`. -/
def BarberPC.hold : BarberPC → Nat
  | .top => 0
  | .wait => 0
  | .deq => 0
  | .work _ => 1
  | .sig _ => 1
  | .inc _ => 1
  | .stopped => 0

/-- The inductive invariant of the system: the queue respects the capacity,
and `arrived` exactly accounts for `served`, `lost`, the queue entries, the
clients between their counter increments, and the ticket in the barber's
hands. -/
def ShopInv (chairs : Nat) (s : SysState) : Prop :=
  s.queue.length ≤ chairs ∧
  s.arrived = s.served + s.lost + s.queue.length + pending s.clients + s.bpc.hold

theorem pending_set (cs : List ClientPC) (i : Nat) (a b : ClientPC)
    (h : cs[i]? = some a) :
    pending (cs.set i b) + a.weight = pending cs + b.weight := by
  induction cs generalizing i with
  | nil => simp at h
  | cons x xs ih =>
    cases i with
    | zero =>
      simp only [List.getElem?_cons_zero, Option.some_inj] at h
      subst h
      simp [pending]
      omega
    | succ j =>
      simp only [List.getElem?_cons_succ] at h
      have hj := ih j h
      simp only [List.set_cons_succ, pending, List.map_cons, List.sum_cons] at hj ⊢
      omega

theorem weight_setSig (pc : ClientPC) : pc.setSig.weight = pc.weight := by
  cases pc <;> rfl

theorem pending_replicate_start (n : Nat) :
    pending (List.replicate n ClientPC.start) = 0 := by
  induction n with
  | zero => rfl
  | succ k ih =>
    rw [List.replicate_succ]
    simp only [pending, List.map_cons, List.sum_cons, ClientPC.weight, Nat.zero_add]
    exact ih

theorem pending_eq_zero_of_done (cs : List ClientPC)
    (h : ∀ pc ∈ cs, pc = ClientPC.done) : pending cs = 0 := by
  induction cs with
  | nil => rfl
  | cons x xs ih =>
    have hx := h x (by simp)
    subst hx
    have := ih fun pc hpc => h pc (by simp [hpc])
    simpa [pending, ClientPC.weight] using this

theorem step_shopInv {chairs : Nat} {l : Label} {s t : SysState}
    (h : step chairs l s = some t) (hs : ShopInv chairs s) : ShopInv chairs t := by
  obtain ⟨hq, ha⟩ := hs
  cases l with
  | cArrive i =>
    simp only [step] at h
    split at h
    next heq =>
      injection h with h
      subst h
      have hp := pending_set s.clients i ClientPC.start ClientPC.atSeat heq
      simp only [ClientPC.weight] at hp
      exact ⟨hq, by dsimp only; omega⟩
    next => exact Option.noConfusion h
  | cSeatOk i =>
    simp only [step] at h
    split at h
    next heq =>
      split at h
      next hlt =>
        injection h with h
        subst h
        have hp := pending_set s.clients i ClientPC.atSeat (ClientPC.seated false) heq
        simp only [ClientPC.weight] at hp
        refine ⟨?_, ?_⟩
        · simp only [List.length_append, List.length_cons, List.length_nil]
          omega
        · dsimp only
          simp only [List.length_append, List.length_cons, List.length_nil]
          omega
      next => exact Option.noConfusion h
    next => exact Option.noConfusion h
  | cSeatFull i =>
    simp only [step] at h
    split at h
    next heq =>
      split at h
      next => exact Option.noConfusion h
      next =>
        injection h with h
        subst h
        have hp := pending_set s.clients i ClientPC.atSeat ClientPC.rejected heq
        simp only [ClientPC.weight] at hp
        exact ⟨hq, by dsimp only; omega⟩
    next => exact Option.noConfusion h
  | cRelease i =>
    simp only [step] at h
    split at h
    next b heq =>
      injection h with h
      subst h
      have hp := pending_set s.clients i (ClientPC.seated b) (ClientPC.waiting b) heq
      simp only [ClientPC.weight] at hp
      exact ⟨hq, by dsimp only; omega⟩
    next => exact Option.noConfusion h
  | cFinish i =>
    simp only [step] at h
    split at h
    next heq =>
      injection h with h
      subst h
      have hp := pending_set s.clients i (ClientPC.waiting true) ClientPC.done heq
      simp only [ClientPC.weight] at hp
      exact ⟨hq, by dsimp only; omega⟩
    next => exact Option.noConfusion h
  | cLost i =>
    simp only [step] at h
    split at h
    next heq =>
      injection h with h
      subst h
      have hp := pending_set s.clients i ClientPC.rejected ClientPC.done heq
      simp only [ClientPC.weight] at hp
      exact ⟨hq, by dsimp only; omega⟩
    next => exact Option.noConfusion h
  | bGo =>
    simp only [step] at h
    split at h
    next hb =>
      split at h
      next => exact Option.noConfusion h
      next =>
        injection h with h
        subst h
        refine ⟨hq, ?_⟩
        rw [hb] at ha
        simp only [BarberPC.hold] at ha ⊢
        omega
    next => exact Option.noConfusion h
  | bStop =>
    simp only [step] at h
    split at h
    next hb =>
      split at h
      next =>
        injection h with h
        subst h
        refine ⟨hq, ?_⟩
        rw [hb] at ha
        simp only [BarberPC.hold] at ha ⊢
        omega
      next => exact Option.noConfusion h
    next => exact Option.noConfusion h
  | bTimeout =>
    simp only [step] at h
    split at h
    next hb =>
      injection h with h
      subst h
      refine ⟨hq, ?_⟩
      rw [hb] at ha
      simp only [BarberPC.hold] at ha ⊢
      omega
    next => exact Option.noConfusion h
  | bAcquire =>
    simp only [step] at h
    split at h
    next hb =>
      split at h
      next =>
        injection h with h
        subst h
        refine ⟨hq, ?_⟩
        rw [hb] at ha
        simp only [BarberPC.hold] at ha ⊢
        omega
      next => exact Option.noConfusion h
    next => exact Option.noConfusion h
  | bPopSome =>
    simp only [step] at h
    split at h
    next hb =>
      split at h
      next c rest heq =>
        injection h with h
        subst h
        have hlen : s.queue.length = rest.length + 1 := by
          rw [heq]; simp
        rw [hb] at ha
        refine ⟨by dsimp only; omega, ?_⟩
        simp only [BarberPC.hold] at ha ⊢
        omega
      next => exact Option.noConfusion h
    next => exact Option.noConfusion h
  | bPopNone =>
    simp only [step] at h
    split at h
    next hb =>
      split at h
      next =>
        injection h with h
        subst h
        refine ⟨hq, ?_⟩
        rw [hb] at ha
        simp only [BarberPC.hold] at ha ⊢
        omega
      next => exact Option.noConfusion h
    next => exact Option.noConfusion h
  | bWork =>
    simp only [step] at h
    split at h
    next c hb =>
      injection h with h
      subst h
      refine ⟨hq, ?_⟩
      rw [hb] at ha
      simp only [BarberPC.hold] at ha ⊢
      omega
    next => exact Option.noConfusion h
  | bSignal =>
    simp only [step] at h
    split at h
    next c hb =>
      split at h
      next pc heq =>
        injection h with h
        subst h
        have hp := pending_set s.clients c pc pc.setSig heq
        rw [weight_setSig] at hp
        refine ⟨hq, ?_⟩
        rw [hb] at ha
        simp only [BarberPC.hold] at ha ⊢
        omega
      next => exact Option.noConfusion h
    next => exact Option.noConfusion h
  | bServed =>
    simp only [step] at h
    split at h
    next c hb =>
      injection h with h
      subst h
      refine ⟨hq, ?_⟩
      rw [hb] at ha
      simp only [BarberPC.hold] at ha ⊢
      omega
    next => exact Option.noConfusion h
  | oShutdown =>
    simp only [step] at h
    split at h
    next => exact Option.noConfusion h
    next =>
      injection h with h
      subst h
      exact ⟨hq, by dsimp only; omega⟩

theorem runTrace_shopInv {chairs : Nat} :
    ∀ (ls : List Label) (s t : SysState),
      runTrace chairs ls s = some t → ShopInv chairs s → ShopInv chairs t := by
  intro ls
  induction ls with
  | nil =>
    intro s t h hs
    simp only [runTrace, Option.some_inj] at h
    exact h ▸ hs
  | cons l ls ih =>
    intro s t h hs
    unfold runTrace at h
    cases hstep : step chairs l s with
    | none => rw [hstep] at h; exact Option.noConfusion h
    | some u =>
      rw [hstep] at h
      exact ih u t h (step_shopInv hstep hs)

theorem initState_shopInv (chairs seed n : Nat) : ShopInv chairs (initState seed n) := by
  refine ⟨by simp [initState], ?_⟩
  simp [initState, pending_replicate_start, BarberPC.hold]

theorem reachable_shopInv {chairs seed n : Nat} {s : SysState}
    (h : Reachable chairs seed n s) : ShopInv chairs s := by
  obtain ⟨ls, hls⟩ := h
  exact runTrace_shopInv ls _ s hls (initState_shopInv chairs seed n)

/-- All client threads have returned and the barber loop has observed the
stop flag and exited: the quiescent point at the end of `run_burst`, after
`shop.shutdown()`. -/
def Quiescent (s : SysState) : Prop :=
  (∀ pc ∈ s.clients, pc = ClientPC.done) ∧ s.bpc = BarberPC.stopped

/-- C1: with the safety toggle enabled (each lock-guarded critical section
atomic), every reachable state of the system — hence every snapshot observed
under the lock, after any interleaving of admission attempts,
dequeue-and-serve cycles, and counter increments — satisfies
`0 ≤ len(queue) ≤ capacity` and `arrived ≥ served + lost`, for every
configuration with positive capacity. -/
theorem lab3_lock_invariant (chairs seed n : Nat) (_hpos : 0 < chairs)
    (s : SysState) (hs : Reachable chairs seed n s) :
    0 ≤ s.queue.length ∧ s.queue.length ≤ chairs ∧
      s.served + s.lost ≤ s.arrived := by
  obtain ⟨h1, h2⟩ := reachable_shopInv hs
  exact ⟨Nat.zero_le _, h1, by omega⟩

/-- C2: at quiescence — every client thread done and the barber stopped — the
counters satisfy `arrived = served + lost + len(queue)` for the final queue
length: every arrival is counted in exactly one of `served`, `lost`, or the
residual queue. -/
theorem lab3_conservation (chairs seed n : Nat) (s : SysState)
    (hs : Reachable chairs seed n s) (hqu : Quiescent s) :
    s.arrived = s.served + s.lost + s.queue.length := by
  obtain ⟨h1, h2⟩ := reachable_shopInv hs
  obtain ⟨hc, hb⟩ := hqu
  have hp : pending s.clients = 0 := pending_eq_zero_of_done _ hc
  rw [hb] at h2
  simp only [BarberPC.hold] at h2
  omega

/-- C8: in the barber loop, a semaphore-acquire timeout, and likewise a
successful acquire whose dequeue finds the queue empty (spurious wake), leave
the shop state untouched — queue, all three counters, semaphore count, every
client's stage (so no ticket signaled) and the draw history are unchanged —
and the barber is back at the top of the loop, re-checking the stop flag. -/
theorem lab3_idle_barber_steps (chairs : Nat) (s t : SysState)
    (h : step chairs Label.bTimeout s = some t ∨
         step chairs Label.bPopNone s = some t) :
    t.queue = s.queue ∧ t.arrived = s.arrived ∧ t.served = s.served ∧
      t.lost = s.lost ∧ t.sem = s.sem ∧ t.clients = s.clients ∧
      t.draws = s.draws ∧ t.bpc = BarberPC.top := by
  rcases h with h | h
  · simp only [step] at h
    split at h
    next =>
      injection h with h
      subst h
      exact ⟨rfl, rfl, rfl, rfl, rfl, rfl, rfl, rfl⟩
    next => exact Option.noConfusion h
  · simp only [step] at h
    split at h
    next =>
      split at h
      next =>
        injection h with h
        subst h
        exact ⟨rfl, rfl, rfl, rfl, rfl, rfl, rfl, rfl⟩
      next => exact Option.noConfusion h
    next => exact Option.noConfusion h

/-- The first `k` draws produced by the generator starting from state `r`. -/
def drawsFrom (r : Nat) : Nat → List Nat
  | 0 => []
  | k + 1 => (randNext r).1 :: drawsFrom (randNext r).2 k

/-- The generator state after `k` draws starting from state `r`. -/
def rngFrom (r : Nat) : Nat → Nat
  | 0 => r
  | k + 1 => rngFrom (randNext r).2 k

theorem rngFrom_succ : ∀ (k r : Nat), rngFrom r (k + 1) = (randNext (rngFrom r k)).2 := by
  intro k
  induction k with
  | zero => intro r; simp [rngFrom]
  | succ j ih =>
    intro r
    calc rngFrom r (j + 1 + 1)
        = rngFrom (randNext r).2 (j + 1) := by rw [rngFrom]
      _ = (randNext (rngFrom (randNext r).2 j)).2 := by rw [ih]
      _ = (randNext (rngFrom r (j + 1))).2 := by rw [rngFrom]

theorem drawsFrom_succ :
    ∀ (k r : Nat), drawsFrom r (k + 1) = drawsFrom r k ++ [(randNext (rngFrom r k)).1] := by
  intro k
  induction k with
  | zero => intro r; simp [drawsFrom, rngFrom]
  | succ j ih =>
    intro r
    calc drawsFrom r (j + 1 + 1)
        = (randNext r).1 :: drawsFrom (randNext r).2 (j + 1) := by rw [drawsFrom]
      _ = (randNext r).1 ::
            (drawsFrom (randNext r).2 j ++ [(randNext (rngFrom (randNext r).2 j)).1]) := by
          rw [ih]
      _ = ((randNext r).1 :: drawsFrom (randNext r).2 j) ++
            [(randNext (rngFrom (randNext r).2 j)).1] := by
          rw [List.cons_append]
      _ = drawsFrom r (j + 1) ++ [(randNext (rngFrom r (j + 1))).1] := by
          rw [drawsFrom, rngFrom]

/-- The draw history of a state is exactly the seed-determined stream prefix,
and the generator state is the corresponding stream state. -/
def DrawInv (seed : Nat) (s : SysState) : Prop :=
  s.rng = rngFrom seed s.draws.length ∧ s.draws = drawsFrom seed s.draws.length

theorem step_drawInv {chairs seed : Nat} {l : Label} {s t : SysState}
    (h : step chairs l s = some t) (hs : DrawInv seed s) : DrawInv seed t := by
  obtain ⟨hr, hd⟩ := hs
  cases l with
  | cArrive i =>
    simp only [step] at h
    split at h
    next =>
      injection h with h
      subst h
      exact ⟨hr, hd⟩
    next => exact Option.noConfusion h
  | cSeatOk i =>
    simp only [step] at h
    split at h
    next =>
      split at h
      next =>
        injection h with h
        subst h
        exact ⟨hr, hd⟩
      next => exact Option.noConfusion h
    next => exact Option.noConfusion h
  | cSeatFull i =>
    simp only [step] at h
    split at h
    next =>
      split at h
      next => exact Option.noConfusion h
      next =>
        injection h with h
        subst h
        exact ⟨hr, hd⟩
    next => exact Option.noConfusion h
  | cRelease i =>
    simp only [step] at h
    split at h
    next =>
      injection h with h
      subst h
      exact ⟨hr, hd⟩
    next => exact Option.noConfusion h
  | cFinish i =>
    simp only [step] at h
    split at h
    next =>
      injection h with h
      subst h
      exact ⟨hr, hd⟩
    next => exact Option.noConfusion h
  | cLost i =>
    simp only [step] at h
    split at h
    next =>
      injection h with h
      subst h
      exact ⟨hr, hd⟩
    next => exact Option.noConfusion h
  | bGo =>
    simp only [step] at h
    split at h
    next =>
      split at h
      next => exact Option.noConfusion h
      next =>
        injection h with h
        subst h
        exact ⟨hr, hd⟩
    next => exact Option.noConfusion h
  | bStop =>
    simp only [step] at h
    split at h
    next =>
      split at h
      next =>
        injection h with h
        subst h
        exact ⟨hr, hd⟩
      next => exact Option.noConfusion h
    next => exact Option.noConfusion h
  | bTimeout =>
    simp only [step] at h
    split at h
    next =>
      injection h with h
      subst h
      exact ⟨hr, hd⟩
    next => exact Option.noConfusion h
  | bAcquire =>
    simp only [step] at h
    split at h
    next =>
      split at h
      next =>
        injection h with h
        subst h
        exact ⟨hr, hd⟩
      next => exact Option.noConfusion h
    next => exact Option.noConfusion h
  | bPopSome =>
    simp only [step] at h
    split at h
    next =>
      split at h
      next =>
        injection h with h
        subst h
        exact ⟨hr, hd⟩
      next => exact Option.noConfusion h
    next => exact Option.noConfusion h
  | bPopNone =>
    simp only [step] at h
    split at h
    next =>
      split at h
      next =>
        injection h with h
        subst h
        exact ⟨hr, hd⟩
      next => exact Option.noConfusion h
    next => exact Option.noConfusion h
  | bWork =>
    simp only [step] at h
    split at h
    next =>
      injection h with h
      subst h
      refine ⟨?_, ?_⟩
      · dsimp only
        rw [List.length_append, List.length_cons, List.length_nil, rngFrom_succ, ← hr]
      · dsimp only
        rw [List.length_append, List.length_cons, List.length_nil, drawsFrom_succ, ← hd, ← hr]
    next => exact Option.noConfusion h
  | bSignal =>
    simp only [step] at h
    split at h
    next =>
      split at h
      next =>
        injection h with h
        subst h
        exact ⟨hr, hd⟩
      next => exact Option.noConfusion h
    next => exact Option.noConfusion h
  | bServed =>
    simp only [step] at h
    split at h
    next =>
      injection h with h
      subst h
      exact ⟨hr, hd⟩
    next => exact Option.noConfusion h
  | oShutdown =>
    simp only [step] at h
    split at h
    next => exact Option.noConfusion h
    next =>
      injection h with h
      subst h
      exact ⟨hr, hd⟩

theorem runTrace_drawInv {chairs seed : Nat} :
    ∀ (ls : List Label) (s t : SysState),
      runTrace chairs ls s = some t → DrawInv seed s → DrawInv seed t := by
  intro ls
  induction ls with
  | nil =>
    intro s t h hs
    simp only [runTrace, Option.some_inj] at h
    exact h ▸ hs
  | cons l ls ih =>
    intro s t h hs
    unfold runTrace at h
    cases hstep : step chairs l s with
    | none => rw [hstep] at h; exact Option.noConfusion h
    | some u =>
      rw [hstep] at h
      exact ih u t h (step_drawInv hstep hs)

theorem reachable_drawInv {chairs seed n : Nat} {s : SysState}
    (h : Reachable chairs seed n s) : DrawInv seed s := by
  obtain ⟨ls, hls⟩ := h
  exact runTrace_drawInv ls _ s hls ⟨rfl, rfl⟩

/-- C9: the haircut-duration draw history of any run is the prefix of the
seed-determined stream of the pseudo-random generator, so two runs with the
same seed that have taken the same number of draws have drawn the identical
sequence, whatever the thread interleavings of the two runs were; the seed
feeds the generator state only, not the choice of interleaving. -/
theorem lab3_seed_determinism (chairs seed n : Nat) (s1 s2 : SysState)
    (h1 : Reachable chairs seed n s1) (h2 : Reachable chairs seed n s2) :
    s1.draws = drawsFrom seed s1.draws.length ∧
      (s1.draws.length = s2.draws.length → s1.draws = s2.draws) := by
  obtain ⟨hr1, hd1⟩ := reachable_drawInv h1
  obtain ⟨hr2, hd2⟩ := reachable_drawInv h2
  refine ⟨hd1, fun hlen => ?_⟩
  rw [hd1, hd2, hlen]

/-- C3: `trySeat` admits the ticket — returning true and appending it at the
tail — exactly when the queue is strictly below capacity at the check inside
the critical section; at or above capacity it returns false and leaves the
queue unchanged, for every ticket and every queue state. -/
theorem trySeat_spec (q : List Nat) (t : Nat) :
    ((trySeat q t).2 = true ↔ q.length < CHAIRS) ∧
      (q.length < CHAIRS → trySeat q t = (q ++ [t], true)) ∧
      (CHAIRS ≤ q.length → trySeat q t = (q, false)) := by
  unfold trySeat
  by_cases h : q.length < CHAIRS
  · simp [h]
  · simp [h]

/-- C3 witness: a two-element queue admits (capacity is 3), a full
three-element queue rejects and is unchanged. -/
theorem trySeat_spec_witness :
    trySeat [7, 8] 9 = ([7, 8, 9], true) ∧ trySeat [4, 5, 6] 9 = ([4, 5, 6], false) :=
  ⟨(trySeat_spec [7, 8] 9).2.1 (by decide), (trySeat_spec [4, 5, 6] 9).2.2 (by decide)⟩

/-- Kinds of log records emitted by a client thread. -/
inductive EventKind where
  | arrive
  | seatTaken
  | served
  | queueFull
deriving DecidableEq, Repr

/-- One row written through `BarberShop._log`: the event kind, the client id,
and the occupancy snapshot `(q_len, free)` attached to the record. -/
structure LogRec where
  event : EventKind
  client : Nat
  qLen : Nat
  free : Int
deriving DecidableEq, Repr

/-- The lock-guarded shop fields touched by one client thread. -/
structure Shop where
  queue : List Nat
  arrived : Nat
  served : Nat
  lost : Nat
deriving DecidableEq, Repr

/-- The body of `BarberShop.spawn_client`'s `run` (lines 160-188) up to its
terminal admission-outcome log record, run without interference: increment
`arrived` and snapshot the occupancy under the lock, log `arrive` with that
snapshot, attempt admission under the lock, then log either `seat_taken` or
(after incrementing `lost`) `queue_full` with a snapshot taken after the
attempt.  The later `served` record has no occupancy arguments at the call
site and is outside this fragment. -/
def clientRun (s : Shop) (cid : Nat) : Shop × List LogRec :=
  let s1 : Shop := { s with arrived := s.arrived + 1 }
  let ql0 := s1.queue.length
  let arriveRec : LogRec :=
    { event := .arrive, client := cid, qLen := ql0, free := (CHAIRS : Int) - ql0 }
  let res := trySeat s1.queue cid
  if res.2 then
    let s2 : Shop := { s1 with queue := res.1 }
    let ql1 := s2.queue.length
    (s2, [arriveRec,
          { event := .seatTaken, client := cid, qLen := ql1, free := (CHAIRS : Int) - ql1 }])
  else
    let s3 : Shop := { s1 with lost := s1.lost + 1 }
    let ql2 := s3.queue.length
    (s3, [arriveRec,
          { event := .queueFull, client := cid, qLen := ql2, free := (CHAIRS : Int) - ql2 }])

/-- C4: the occupancy snapshot attached to a client's `arrive` record is the
queue length before that client's own admission attempt, while the
`seat_taken` snapshot is taken after the attempt (one larger when admitted)
and the `queue_full` snapshot is taken after the attempt (unchanged, the
queue being full): the two snapshot points are asymmetric and not unified. -/
theorem clientRun_snapshots (s : Shop) (cid : Nat) :
    (clientRun s cid).2[0]? =
        some { event := .arrive, client := cid, qLen := s.queue.length,
               free := (CHAIRS : Int) - s.queue.length } ∧
      (s.queue.length < CHAIRS →
        (clientRun s cid).2[1]? =
          some { event := .seatTaken, client := cid, qLen := s.queue.length + 1,
                 free := (CHAIRS : Int) - (s.queue.length + 1) }) ∧
      (CHAIRS ≤ s.queue.length →
        (clientRun s cid).2[1]? =
          some { event := .queueFull, client := cid, qLen := s.queue.length,
                 free := (CHAIRS : Int) - s.queue.length }) := by
  unfold clientRun trySeat
  by_cases h : s.queue.length < CHAIRS
  · simp [h]
  · simp [h]

/-- C4 witness: with one client already queued, an arriving client logs
`arrive` with the pre-admission length 1 and `seat_taken` with the
post-admission length 2. -/
theorem clientRun_snapshots_witness :
    (clientRun { queue := [1], arrived := 1, served := 0, lost := 0 } 5).2[0]? =
        some { event := .arrive, client := 5, qLen := 1, free := 2 } ∧
      (clientRun { queue := [1], arrived := 1, served := 0, lost := 0 } 5).2[1]? =
        some { event := .seatTaken, client := 5, qLen := 2, free := 1 } := by
  have h := clientRun_snapshots { queue := [1], arrived := 1, served := 0, lost := 0 } 5
  exact ⟨h.1, h.2.1 (by decide)⟩

theorem afterArrivals_parties (p : Nat) : ∀ k, (afterArrivals p k).parties = p := by
  intro k
  induction k with
  | zero => rfl
  | succ j ih => simp [afterArrivals, WinBarrier.arrive, ih]

theorem afterArrivals_count (p : Nat) : ∀ k, (afterArrivals p k).count = k := by
  intro k
  induction k with
  | zero => rfl
  | succ j ih => simp [afterArrivals, WinBarrier.arrive, ih]

theorem afterArrivals_evtSet (p : Nat) (hp : 0 < p) :
    ∀ k, (afterArrivals p k).evtSet = decide (p ≤ k) := by
  intro k
  induction k with
  | zero =>
    have h0 : ¬ (p ≤ 0) := by omega
    simp [afterArrivals, mkWinBarrier, h0]
  | succ j ih =>
    simp only [afterArrivals, WinBarrier.arrive, ih, afterArrivals_count,
      afterArrivals_parties]
    by_cases h : p ≤ j + 1
    · have h2 : j + 1 ≥ p := h
      simp [h, h2]
    · have h2 : ¬ (j + 1 ≥ p) := h
      have h3 : ¬ (p ≤ j) := by omega
      simp [h, h2, h3]

/-- C5 counterexample: `WinBarrier` is not reusable.  With 2 parties, one
arrival of the first cohort still blocks (`canReturn = false`), and the
release happens at the second arrival; but the third call — the first caller
of the would-be second cohort — can return immediately (`canReturn = true`)
instead of blocking until two further calls arrive, because the manual-reset
event is never reset. -/
theorem winBarrier_not_reusable :
    (afterArrivals 2 1).canReturn = false ∧ (afterArrivals 2 3).canReturn = true := by
  decide

/-- C5 amended: the barrier is one-shot.  For every positive party count, no
call can return before `parties` calls have arrived; once `parties` calls have
arrived the event is set and stays set, so the first cohort is released
together and every subsequent caller passes through immediately without a new
cohort forming. -/
theorem winBarrier_one_shot (p k : Nat) (hp : 0 < p) :
    (afterArrivals p k).canReturn = true ↔ p ≤ k := by
  simp [WinBarrier.canReturn, afterArrivals_evtSet p hp k]

/-- C5 amended witness: with 2 parties, one arrival cannot return, three
arrivals (one past the release) can. -/
theorem winBarrier_one_shot_witness :
    ¬ (afterArrivals 2 1).canReturn = true ∧ (afterArrivals 2 3).canReturn = true :=
  ⟨fun h => absurd ((winBarrier_one_shot 2 1 (by decide)).mp h) (by decide),
   (winBarrier_one_shot 2 3 (by decide)).mpr (by decide)⟩

/-- C6 counterexample: `run_burst` never invokes the invariant checker — in
particular not once more at the end of the run — contradicting the claim that
the orchestrator calls it after joining the arrivals and stopping the
server. -/
theorem runBurst_no_final_invariant_check :
    OrchAction.assertInvs ∉ runBurstActions := by
  decide

/-- C6 amended: `run_burst` does not invoke the invariant checker at all;
after joining the arrivals it shuts the shop down, and the only actions from
the shutdown on are reading the counters under the lock, printing the summary
line, and printing the csv path. -/
theorem runBurst_final_actions :
    runBurstActions.dropWhile (fun a => a != OrchAction.shutdownShop) =
        [OrchAction.shutdownShop, OrchAction.readCounters, OrchAction.printSummary,
         OrchAction.printCsvPath] ∧
      OrchAction.assertInvs ∉ runBurstActions := by
  decide

/-- C7 counterexample: when the flush raises during shutdown, the bare
`except Exception: pass` swallows it silently — shutdown completes, but
contrary to the claim no record of the failure is logged. -/
theorem shutdown_error_not_logged :
    (shutdownModel true false).completed = true ∧
      (shutdownModel true false).errorLogged = false := by
  decide

/-- C7 amended: every exception raised while flushing or closing the log sink
during shutdown is caught and silently suppressed (`except Exception: pass`);
shutdown always completes and never propagates the failure, but it also never
logs it. -/
theorem shutdown_swallows_errors (flushRaises closeRaises : Bool) :
    (shutdownModel flushRaises closeRaises).completed = true ∧
      (shutdownModel flushRaises closeRaises).errorLogged = false := by
  cases flushRaises <;> cases closeRaises <;> decide

/-- C10: the synthetic CPU workload `_fib` is a total function on the
integers — this Lean transcription is total, which is the termination claim —
returning `n` itself for every `n ≤ 1`, negative arguments included, and
satisfying the recurrence `_fib n = _fib (n-1) + _fib (n-2)` for `n > 1`. -/
theorem fib_total_spec (n : Int) :
    (n ≤ 1 → _fib n = n) ∧ (1 < n → _fib n = _fib (n - 1) + _fib (n - 2)) := by
  constructor
  · intro h
    rw [_fib, if_pos h]
  · intro h
    rw [_fib, if_neg (by omega)]

/-- C10 witness: a negative argument is returned unchanged, and the
recurrence holds at 9. -/
theorem fib_total_spec_witness :
    _fib (-7) = -7 ∧ _fib 9 = _fib 8 + _fib 7 :=
  ⟨(fib_total_spec (-7)).1 (by decide), (fib_total_spec 9).2 (by decide)⟩

/-- A short interleaving for the C1 witness: two clients admitted while a
third arrival is pending and the barber wakes up. -/
def w1Trace : List Label :=
  [.cArrive 0, .cSeatOk 0, .cArrive 1, .bGo, .cRelease 0]

/-- The state reached by `w1Trace` from the initial burst state. -/
def w1State : SysState :=
  (runTrace 3 w1Trace (initState 42 12)).getD (initState 42 12)

/-- C1 witness: the invariant holds at the concrete reachable state
`w1State` of the configured burst (capacity 3, seed 42, 12 clients). -/
theorem lab3_lock_invariant_witness :
    0 ≤ w1State.queue.length ∧ w1State.queue.length ≤ 3 ∧
      w1State.served + w1State.lost ≤ w1State.arrived :=
  lab3_lock_invariant 3 42 12 (by decide) w1State ⟨w1Trace, by decide⟩

/-- A complete run for the C2 witness: one client arrives, is admitted and
served, the orchestrator shuts down, and the barber observes the stop flag. -/
def w2Trace : List Label :=
  [.cArrive 0, .cSeatOk 0, .cRelease 0, .bGo, .bAcquire, .bPopSome, .bWork,
   .bSignal, .bServed, .cFinish 0, .oShutdown, .bStop]

/-- The quiescent state reached by `w2Trace`. -/
def w2State : SysState :=
  (runTrace 3 w2Trace (initState 42 1)).getD (initState 42 1)

/-- C2 witness: conservation holds at the concrete quiescent state reached by
the complete one-client run `w2Trace`. -/
theorem lab3_conservation_witness :
    w2State.arrived = w2State.served + w2State.lost + w2State.queue.length :=
  lab3_conservation 3 42 1 w2State ⟨w2Trace, by decide⟩ ⟨by decide, by decide⟩

/-- A state with the barber blocked in its timed semaphore acquire, for the
C8 witness. -/
def w8State : SysState :=
  { initState 42 2 with bpc := .wait }

/-- The state after the timeout step from `w8State`. -/
def w8After : SysState :=
  (step 3 Label.bTimeout w8State).getD w8State

/-- C8 witness: the concrete timeout step from `w8State` changes nothing but
the barber's position, which is back at the loop top. -/
theorem lab3_idle_barber_steps_witness :
    w8After.queue = w8State.queue ∧ w8After.arrived = w8State.arrived ∧
      w8After.served = w8State.served ∧ w8After.lost = w8State.lost ∧
      w8After.sem = w8State.sem ∧ w8After.clients = w8State.clients ∧
      w8After.draws = w8State.draws ∧ w8After.bpc = BarberPC.top :=
  lab3_idle_barber_steps 3 w8State w8After (Or.inl (by decide))

/-- First interleaving for the C9 witness: client 0 is admitted and the
barber draws one haircut duration. -/
def w9aTrace : List Label :=
  [.cArrive 0, .cSeatOk 0, .cRelease 0, .bGo, .bAcquire, .bPopSome, .bWork]

/-- Second interleaving for the C9 witness: an extra barber timeout and the
second client's arrival are interleaved before the same draw happens. -/
def w9bTrace : List Label :=
  [.bGo, .bTimeout, .cArrive 0, .cArrive 1, .cSeatOk 0, .cRelease 0, .bGo,
   .bAcquire, .bPopSome, .bWork]

/-- The state reached by `w9aTrace`. -/
def w9aState : SysState :=
  (runTrace 3 w9aTrace (initState 42 2)).getD (initState 42 2)

/-- The state reached by `w9bTrace`. -/
def w9bState : SysState :=
  (runTrace 3 w9bTrace (initState 42 2)).getD (initState 42 2)

/-- C9 witness: two concrete runs with seed 42 under different interleavings
have draw histories that are the same seed-determined prefix, hence equal. -/
theorem lab3_seed_determinism_witness :
    w9aState.draws = drawsFrom 42 w9aState.draws.length ∧
      w9aState.draws = w9bState.draws := by
  have h := lab3_seed_determinism 3 42 2 w9aState w9bState
    ⟨w9aTrace, by decide⟩ ⟨w9bTrace, by decide⟩
  exact ⟨h.1, h.2 (by decide)⟩
